import Mathlib

/-
Verification of the reactive owner-indexed store, its publish/subscribe
fan-out, the pod adapter and the SBOM enrichment worker of the bommer
repository.  The Rust code is embedded shallowly: `HashMap`s become
functions into `Option`, `HashSet`s of owners become `Finset`s, a
`HashSet` of keys handed to `apply` (whose iteration order is
unspecified) is modelled as the list it is iterated in, and each
subscriber's mpsc channel is modelled as the list of events enqueued so
far.
-/

set_option maxRecDepth 4096

namespace Bommer

/-- An entry of the owner-indexed store (`State<O, V>` in
`src/store/mod.rs`): the owners using a key plus the per-key state. -/
structure State (O V : Type) where
  owners : Finset O
  state : V
  deriving DecidableEq

/-- Broadcast events (`Event<K, O, V>` in `src/store/pubsub.rs`); the
`restart` variant carries a full images map. -/
inductive Event (K O V : Type) where
  | added (key : K) (st : State O V)
  | modified (key : K) (st : State O V)
  | removed (key : K)
  | restart (images : K → Option (State O V))

/-- Whether an event is a `Restart`. -/
def Event.isRestart {K O V : Type} : Event K O V → Bool
  | .restart _ => true
  | _ => false

/-- The store state (`Inner<K, O, V>` in `src/store/mod.rs`): the images
map, the reverse pods map, and the listener table.  Each listener's
channel is the list of events enqueued so far; the value stored in
`pods` is the key `HashSet`, kept as the list it is iterated in. -/
structure Inner (K O V : Type) where
  images : K → Option (State O V)
  pods : O → Option (List K)
  listeners : List (Nat × List (Event K O V))

/-- `Inner::default()`: empty maps, no listeners. -/
def Inner.default (K O V : Type) : Inner K O V :=
  { images := fun _ => none, pods := fun _ => none, listeners := [] }

/-- `Inner::broadcast`: enqueue the event on every listener's channel.
In the source a send fails only when the receiver has been dropped and a
failed listener is removed; receivers are live in this model, and the
failure policy is modelled separately by `sendOutcome`. -/
def Inner.broadcast {K O V : Type} (s : Inner K O V) (e : Event K O V) : Inner K O V :=
  { s with listeners := s.listeners.map fun p => (p.1, p.2 ++ [e]) }

variable {K O V : Type}

/-- Loop body of `Inner::delete`: release one image of a removed owner.
The owner is erased from the entry; an emptied entry is dropped with a
`Removed` broadcast, otherwise the state callback runs and a `Modified`
is broadcast. -/
def deleteStep [DecidableEq K] [DecidableEq O] (podRef : O) (applyF : K → V → V)
    (acc : Inner K O V × List (Event K O V)) (image : K) :
    Inner K O V × List (Event K O V) :=
  match acc.1.images image with
  | none => acc
  | some st =>
    let owners' := st.owners.erase podRef
    if owners' = ∅ then
      let s' := { acc.1 with images := Function.update acc.1.images image none }
      (s'.broadcast (.removed image), acc.2 ++ [.removed image])
    else
      let st' : State O V := ⟨owners', applyF image st.state⟩
      let s' := { acc.1 with images := Function.update acc.1.images image (some st') }
      (s'.broadcast (.modified image st'), acc.2 ++ [.modified image st'])

/-- `Inner::delete`: drop the owner from `pods` and clean up each of its
images. -/
def Inner.delete [DecidableEq K] [DecidableEq O] (s : Inner K O V) (podRef : O)
    (applyF : K → V → V) : Inner K O V × List (Event K O V) :=
  match s.pods podRef with
  | none => (s, [])
  | some images =>
    images.foldl (deleteStep podRef applyF)
      ({ s with pods := Function.update s.pods podRef none }, [])

/-- Loop body of `Inner::apply`: a vacant entry is created with the owner
as sole member (broadcasting `Added`); an occupied entry gets the owner
inserted and the state callback applied, broadcasting `Modified` exactly
when the owner was actually added. -/
def applyStep [DecidableEq K] [DecidableEq O] (ownerRef : O) (initial : K → V)
    (applyF : K → V → V) (acc : Inner K O V × List (Event K O V)) (image : K) :
    Inner K O V × List (Event K O V) :=
  match acc.1.images image with
  | none =>
    let st : State O V := ⟨{ownerRef}, initial image⟩
    let s' := { acc.1 with images := Function.update acc.1.images image (some st) }
    (s'.broadcast (.added image st), acc.2 ++ [.added image st])
  | some st =>
    let st' : State O V := ⟨insert ownerRef st.owners, applyF image st.state⟩
    let s' := { acc.1 with images := Function.update acc.1.images image (some st') }
    if ownerRef ∈ st.owners then (s', acc.2)
    else (s'.broadcast (.modified image st'), acc.2 ++ [.modified image st'])

/-- Common tail of `Inner::apply`: add all keys, then record the owner's
key set in `pods`. -/
def Inner.applyAdd [DecidableEq K] [DecidableEq O] (s : Inner K O V) (ownerRef : O)
    (keys : List K) (initial : K → V) (applyF : K → V → V)
    (evs : List (Event K O V)) : Inner K O V × List (Event K O V) :=
  let r := keys.foldl (applyStep ownerRef initial applyF) (s, evs)
  ({ r.1 with pods := Function.update r.1.pods ownerRef (some keys) }, r.2)

/-- `Inner::apply`: no-op when the owner already maps to an equal key
set, otherwise delete-then-add. -/
def Inner.apply [DecidableEq K] [DecidableEq O] (s : Inner K O V) (ownerRef : O)
    (keys : List K) (initial : K → V) (applyF : K → V → V) :
    Inner K O V × List (Event K O V) :=
  match s.pods ownerRef with
  | some current =>
    if current.toFinset = keys.toFinset then (s, [])
    else
      let r := s.delete ownerRef applyF
      r.1.applyAdd ownerRef keys initial applyF r.2
  | none => s.applyAdd ownerRef keys initial applyF []

/-- `Inner::reset`: replace both maps atomically and broadcast a single
`Restart` carrying the new images map. -/
def Inner.reset (s : Inner K O V) (images' : K → Option (State O V))
    (pods' : O → Option (List K)) : Inner K O V × List (Event K O V) :=
  (({ s with images := images', pods := pods' } : Inner K O V).broadcast
      (.restart images'),
    [.restart images'])

/-- `Inner::get_state`: snapshot of the images map. -/
def Inner.get_state (s : Inner K O V) : K → Option (State O V) := s.images

/-- Fresh listener id: the uuid collision loop of `Inner::subscribe` is
modelled by taking a number larger than every registered id. -/
def freshId (listeners : List (Nat × List (Event K O V))) : Nat :=
  (listeners.map Prod.fst).foldr max 0 + 1

/-- `Inner::subscribe`: create the channel, enqueue `Restart` with the
current images map, then register the sender under a fresh id. -/
def Inner.subscribe (s : Inner K O V) : Inner K O V × Nat :=
  let id := freshId s.listeners
  ({ s with listeners := s.listeners ++ [(id, [.restart s.images])] }, id)

/-- The queue of events a subscriber has been sent, by listener id. -/
def Inner.queueOf [DecidableEq K] [DecidableEq O] (s : Inner K O V) (id : Nat) :
    Option (List (Event K O V)) :=
  (s.listeners.find? fun p => p.1 = id).map Prod.snd

/-- One public mutation of the store, carrying its per-call function
parameters. -/
inductive Op (K O V : Type) where
  | applyOp (owner : O) (keys : List K) (initial : K → V) (applyF : K → V → V)
  | deleteOp (owner : O) (applyF : K → V → V)
  | resetOp (images : K → Option (State O V)) (pods : O → Option (List K))

/-- Whether an operation is a `reset`. -/
def Op.isReset {K O V : Type} : Op K O V → Prop
  | .resetOp _ _ => True
  | _ => False

/-- Run one operation. -/
def Inner.runOp [DecidableEq K] [DecidableEq O] (s : Inner K O V) :
    Op K O V → Inner K O V × List (Event K O V)
  | .applyOp o keys i f => s.apply o keys i f
  | .deleteOp o f => s.delete o f
  | .resetOp im pd => s.reset im pd

/-- Run a sequence of operations, collecting the broadcast trace. -/
def Inner.runOps [DecidableEq K] [DecidableEq O] (s : Inner K O V) :
    List (Op K O V) → Inner K O V × List (Event K O V)
  | [] => (s, [])
  | op :: ops =>
    let r := s.runOp op
    let r' := r.1.runOps ops
    (r'.1, r.2 ++ r'.2)

/-- The owners recorded for a key (empty when the entry is absent). -/
def ownersAt (images : K → Option (State O V)) (k : K) : Finset O :=
  (images k).elim ∅ State.owners

/-- The key set recorded for an owner (empty when absent). -/
def keysAt (pods : O → Option (List K)) (o : O) : List K :=
  (pods o).getD []

/-- Bidirectional consistency: an owner sits in a key's entry iff the key
sits in the owner's set, and entries exist only with non-empty owners. -/
def ConsistentMaps (images : K → Option (State O V)) (pods : O → Option (List K)) : Prop :=
  (∀ k o, o ∈ ownersAt images k ↔ k ∈ keysAt pods o) ∧
    ∀ k e, images k = some e → e.owners ≠ ∅

/-- The store invariant. -/
def Inner.Consistent (s : Inner K O V) : Prop := ConsistentMaps s.images s.pods

/-- Whether a `reset` operation carries consistent argument maps; other
operations carry no maps. -/
def Op.ConsistentArgs {K O V : Type} : Op K O V → Prop
  | .resetOp im pd => ConsistentMaps im pd
  | _ => True

/- ## Broadcast failure policy (`Inner::broadcast` + tokio mpsc) -/

/-- A subscriber channel as `Inner::broadcast` sees it: whether the
receiver has been dropped, how many events sit in the queue, and the
channel capacity. -/
structure ListenerView where
  closed : Bool
  queued : Nat
  capacity : Nat
  deriving DecidableEq

/-- Outcome of one `l.send(evt).await` in `Inner::broadcast`, following
the contract of `tokio::sync::mpsc::Sender::send`: the call returns an
error iff the channel is closed (receiver dropped); with a free slot it
delivers; on a full queue with a live receiver it waits for capacity. -/
inductive SendOutcome where
  | delivered
  | waits
  | failed
  deriving DecidableEq

/-- The send outcome for one listener. -/
def sendOutcome (l : ListenerView) : SendOutcome :=
  if l.closed then .failed
  else if l.queued < l.capacity then .delivered
  else .waits

/-- The bounded queue cannot accept the event right now: closed, or full. -/
def cannotAccept (l : ListenerView) : Bool :=
  l.closed || decide (l.capacity ≤ l.queued)

/-- `Inner::broadcast` marks a listener failed (and removes it) exactly
when its send returned an error. -/
def broadcastRemoves (l : ListenerView) : Bool :=
  match sendOutcome l with
  | .failed => true
  | _ => false

/-- The listener table after the removal pass of `Inner::broadcast`. -/
def broadcastSurvivors (ls : List ListenerView) : List ListenerView :=
  ls.filter fun l => !broadcastRemoves l

/- ## Pod adapter (`src/store/mod.rs`, bottom half) -/

/-- A container status; only the `image_id` field is read. -/
structure ContainerStatus where
  image_id : String
  deriving DecidableEq

/-- A pod status: the three optional lists of container statuses. -/
structure PodStatus where
  container_statuses : Option (List ContainerStatus)
  init_container_statuses : Option (List ContainerStatus)
  ephemeral_container_statuses : Option (List ContainerStatus)
  deriving DecidableEq

/-- A pod: optional namespace and name from the metadata (`nspace`
models `metadata.namespace`), plus the optional status. -/
structure Pod where
  nspace : Option String
  name : Option String
  status : Option PodStatus
  deriving DecidableEq

/-- An image reference (`ImageRef` in `src/api.rs`): the raw image id. -/
structure ImageRef where
  val : String
  deriving DecidableEq

/-- A pod reference (`PodRef` in `src/api.rs`); `nspace` models the
`namespace` field. -/
structure PodRef where
  nspace : String
  name : String
  deriving DecidableEq

/-- `to_container_id`: skip empty image ids, otherwise wrap the raw id. -/
def to_container_id (container : ContainerStatus) : Option ImageRef :=
  if container.image_id = "" then none else some ⟨container.image_id⟩

/-- The chained regular/init/ephemeral container statuses of a pod, in
the order `images_from_pod` visits them. -/
def allStatuses (pod : Pod) : List ContainerStatus :=
  match pod.status with
  | none => []
  | some s =>
    s.container_statuses.getD [] ++ s.init_container_statuses.getD [] ++
      s.ephemeral_container_statuses.getD []

/-- `images_from_pod` as a list: collect the non-empty image ids; the
`HashSet` the Rust code collects into is modelled by deduplication. -/
def images_from_pod_list (pod : Pod) : List ImageRef :=
  ((allStatuses pod).filterMap to_container_id).dedup

/-- `images_from_pod` as a set of keys. -/
def images_from_pod (pod : Pod) : Finset ImageRef :=
  (images_from_pod_list pod).toFinset

/-- `to_key`: a pod keys by namespace and name; either missing means no
key. -/
def to_key (pod : Pod) : Option PodRef :=
  match pod.nspace, pod.name with
  | some namespace_, some name => some ⟨namespace_, name⟩
  | _, _ => none

/-- One step of `to_state`: skip keyless pods; otherwise insert the pod
into the owners of each of its images (`entry().or_default()` then
`owners.insert`) and overwrite the pod's entry in `by_pods`. -/
def to_state_step
    (acc : (ImageRef → Option (State PodRef Unit)) × (PodRef → Option (List ImageRef)))
    (pod : Pod) :
    (ImageRef → Option (State PodRef Unit)) × (PodRef → Option (List ImageRef)) :=
  match to_key pod with
  | none => acc
  | some podRef =>
    let imgs := images_from_pod_list pod
    let byImages := imgs.foldl
      (fun m image =>
        Function.update m image (some ⟨insert podRef (ownersAt m image), ()⟩))
      acc.1
    (byImages, Function.update acc.2 podRef (some imgs))

/-- `to_state`: one pass over the pod list building both maps. -/
def to_state (pods : List Pod) :
    (ImageRef → Option (State PodRef Unit)) × (PodRef → Option (List ImageRef)) :=
  pods.foldl to_state_step (fun _ => none, fun _ => none)

/-- Watcher events consumed by `run` in `src/store/mod.rs`. -/
inductive WatcherEvent where
  | applied (pod : Pod)
  | deleted (pod : Pod)
  | restarted (pods : List Pod)

/-- The body of `run`: translate one watcher event into a store call;
pods without a key are skipped. -/
def handleWatchEvent (s : Inner ImageRef PodRef Unit) :
    WatcherEvent → Inner ImageRef PodRef Unit × List (Event ImageRef PodRef Unit)
  | .applied pod =>
    match to_key pod with
    | none => (s, [])
    | some podRef =>
      s.apply podRef (images_from_pod_list pod) (fun _ => ()) (fun _ v => v)
  | .deleted pod =>
    match to_key pod with
    | none => (s, [])
    | some podRef => s.delete podRef (fun _ v => v)
  | .restarted pods =>
    let r := to_state pods
    s.reset r.1 r.2

/- ## SBOM client (`src/bombastic.rs`) and enrichment (`src/bombastic/mod.rs`) -/

/-- An SBOM blob (`SBOM` in `src/bombastic.rs`): the response body. -/
structure SBOM where
  data : String
  deriving DecidableEq

deriving instance DecidableEq for Except

/-- An HTTP response as `lookup_sbom` consumes it: the status code and
the body read, which can itself fail. -/
structure HttpResponse where
  status : Nat
  text : Except String String
  deriving DecidableEq

/-- `BombasticSource::lookup_sbom`, `src/bombastic.rs` lines 32-43, with
the URL and query construction factored out and the outcome of `send()`
passed in: a transport error propagates, a body-read error propagates,
and otherwise the body becomes the SBOM.  The response status is never
examined. -/
def lookup_sbom (response : Except String HttpResponse) : Except String SBOM :=
  match response with
  | .error e => .error e
  | .ok r =>
    match r.text with
    | .error e => .error e
    | .ok t => .ok ⟨t⟩

/-- `SbomState` in `src/bombastic/mod.rs`. -/
inductive SbomState where
  | Scheduled
  | Err (msg : String)
  | Missing
  | Found (sbom : SBOM)
  deriving DecidableEq

/-- `Image` in `src/bombastic/mod.rs`: the pods using an image plus its
SBOM state. -/
structure Image where
  pods : Finset PodRef
  sbom : SbomState
  deriving DecidableEq

/-- The state `Scanner::scan` latches from a lookup result: `Found` on
success, `Err` with the message on failure. -/
def scanState (result : Except String SBOM) : SbomState :=
  match result with
  | .ok r => .Found r
  | .error e => .Err e

/-- Character-level Rust `str::rsplit_once`: split around the last
occurrence of the character. -/
def rsplitOnceCh : List Char → Char → Option (List Char × List Char)
  | [], _ => none
  | x :: xs, c =>
    match rsplitOnceCh xs c with
    | some p => some (x :: p.1, p.2)
    | none => if x = c then some ([], xs) else none

/-- Rust `str::rsplit_once` on strings. -/
def rsplitOnce (s : String) (c : Char) : Option (String × String) :=
  (rsplitOnceCh s.data c).map fun p => (⟨p.1⟩, ⟨p.2⟩)

/-- Rust `base.split('/').last().unwrap()`: everything after the last
slash, or the whole string without one. -/
def lastSlashComponent (base : String) : String :=
  match rsplitOnce base '/' with
  | some p => p.2
  | none => base

/-- A package URL as built by `Scanner::lookup`. -/
structure PackageUrl where
  ty : String
  name : String
  version : Option String
  deriving DecidableEq

/-- `PackageUrl::to_string()`; percent-encoding of reserved characters
is not modelled (none occur in the names and digests handled here). -/
def PackageUrl.render (p : PackageUrl) : String :=
  "pkg:" ++ p.ty ++ "/" ++ p.name ++
    match p.version with
    | some v => "@" ++ v
    | none => ""

/-- Rust `str::starts_with` for a string pattern. -/
def strStartsWith (s pat : String) : Bool :=
  pat.data.isPrefixOf s.data

/-- `Scanner::lookup`, `src/bombastic/mod.rs` lines 66-77, with the HTTP
call factored out: split the image at the rightmost `@`; `split('/')`
always yields a last component and `PackageUrl::new("oci", name)` cannot
fail for the constant type `oci`, so only the two `bail!` paths fail. -/
def Scanner.lookup (image : String) : Except String PackageUrl :=
  match rsplitOnce image '@' with
  | some p =>
    if strStartsWith p.2 "sha256:" then
      .ok ⟨"oci", lastSlashComponent p.1, some p.2⟩
    else .error ("Unable to create PURL for: " ++ image)
  | none => .error ("Unable to create PURL for: " ++ image)

/-- The enrichment worker's map contents (`Map`/`State<ImageRef, Image>`
in `src/bombastic/mod.rs`). -/
def MapSt : Type := ImageRef → Option Image

/-- Modelled from the spec: `mutate_state` of `crate::pubsub::State`,
whose source is not in the repository snapshot (only its callers are).
Per spec section 4.2, `mutate` applies the closure to the current entry
(or absence) and stores the result; the events it emits are not needed
for the stored-state invariant and are omitted. -/
def mutate_state (m : MapSt) (k : ImageRef) (f : Option Image → Option Image) : MapSt :=
  Function.update m k (f (m k))

/-- Modelled from the spec: `set_state` of `crate::pubsub::State`
replaces the whole map (spec section 4.4, the `Restart` arm of the
mirror loop). -/
def set_state (_m : MapSt) (m' : MapSt) : MapSt := m'

/-- The mirror loop body (`runner` in `src/bombastic/mod.rs`): mirror an
upstream store event into the enrichment map, initializing the SBOM
state of fresh entries to `Scheduled` and resetting every entry to
`Scheduled` on `Restart`. -/
def runnerStep (m : MapSt) (evt : Event ImageRef PodRef Unit) : MapSt :=
  match evt with
  | .added image st | .modified image st =>
    mutate_state m image fun current =>
      match current with
      | some c => some { c with pods := st.owners }
      | none => some ⟨st.owners, .Scheduled⟩
  | .removed image => mutate_state m image fun _ => none
  | .restart st =>
    set_state m fun k => (st k).map fun v => ⟨v.owners, .Scheduled⟩

/-- The write-back of `Scanner::scan`: latch the lookup outcome onto the
entry, dropping the result when the entry is gone. -/
def scanApply (m : MapSt) (image : ImageRef) (result : Except String SBOM) : MapSt :=
  mutate_state m image fun current =>
    current.map fun c => { c with sbom := scanState result }

/-- One step of the enrichment worker: either the mirror loop handles an
upstream event, or a scan completes with some lookup result. -/
inductive MirrorStep where
  | upstream (evt : Event ImageRef PodRef Unit)
  | scan (image : ImageRef) (result : Except String SBOM)

/-- Run a sequence of enrichment worker steps. -/
def runMirror (m : MapSt) : List MirrorStep → MapSt
  | [] => m
  | .upstream evt :: rest => runMirror (runnerStep m evt) rest
  | .scan image result :: rest => runMirror (scanApply m image result) rest

/-- No entry of the enrichment map carries `SbomState::Missing`. -/
def NoMissing (m : MapSt) : Prop :=
  ∀ k img, m k = some img → img.sbom ≠ SbomState.Missing

/-- The empty enrichment map (`Map::default()`). -/
def emptyMap : MapSt := fun _ => none

/- ## Concrete inputs used in witnesses and counterexamples -/

/-- A pod whose single container runs the given image, under the fixed
pod key `ns/p`. -/
def dupPod (img : String) : Pod :=
  ⟨some "ns", some "p", some ⟨some [⟨img⟩], none, none⟩⟩

/-- Two pods with the same pod key but different image sets. -/
def dupPods : List Pod := [dupPod "a", dupPod "b"]

/-- A concrete operation sequence: one pod applied, then deleted. -/
def c1ops : List (Op Nat Nat Nat) :=
  [.applyOp 0 [1, 2] (fun _ => 0) (fun _ v => v), .deleteOp 0 fun _ v => v]

/-- A concrete operation sequence without a reset. -/
def c2ops : List (Op Nat Nat Nat) :=
  [.applyOp 1 [5] (fun _ => 0) fun _ v => v]

/-- A concrete enrichment map holding one scheduled entry. -/
def c4map : MapSt :=
  Function.update emptyMap ⟨"img"⟩ (some ⟨{⟨"ns", "p"⟩}, .Scheduled⟩)

/-- A concrete pod with a namespace but no name. -/
def c7pod : Pod := ⟨some "ns", none, some ⟨some [⟨"img"⟩], none, none⟩⟩

/-- A concrete enrichment run: one image mirrored, then scanned. -/
def c9steps : List MirrorStep :=
  [.upstream (.added ⟨"i"⟩ ⟨{⟨"ns", "p"⟩}, ()⟩), .scan ⟨"i"⟩ (.ok ⟨"sbom"⟩)]

/-- Two pods with pairwise-distinct pod keys. -/
def c10pods : List Pod :=
  [⟨some "ns", some "p1", some ⟨some [⟨"a"⟩], none, none⟩⟩,
    ⟨some "ns", some "p2", some ⟨some [⟨"b"⟩], none, none⟩⟩]

/- ## Helper lemmas -/

theorem ownersAt_update [DecidableEq K] (m : K → Option (State O V)) (k k' : K)
    (v : Option (State O V)) :
    ownersAt (Function.update m k v) k' =
      if k' = k then v.elim ∅ State.owners else ownersAt m k' := by
  unfold ownersAt
  rw [Function.update_apply]
  by_cases h : k' = k <;> simp [h]

theorem ownersAt_of_eq_none {m : K → Option (State O V)} {k : K} (h : m k = none) :
    ownersAt m k = ∅ := by
  unfold ownersAt
  rw [h]
  rfl

theorem ownersAt_of_eq_some {m : K → Option (State O V)} {k : K} {st : State O V}
    (h : m k = some st) : ownersAt m k = st.owners := by
  unfold ownersAt
  rw [h]
  rfl

theorem broadcastRemoves_eq (l : ListenerView) : broadcastRemoves l = l.closed := by
  unfold broadcastRemoves sendOutcome
  by_cases h : l.closed
  · simp [h]
  · by_cases h2 : l.queued < l.capacity <;> simp [h, h2]

/- ## C3: broadcast failure policy -/

/-- C3 is false on the code: a subscriber with a full bounded queue but a
live receiver cannot accept the event, yet `Inner::broadcast` does not mark
it failed — the `send` waits for capacity instead of failing. -/
theorem c3_drop_on_congestion_false :
    cannotAccept ⟨false, 16, 16⟩ = true ∧
      broadcastRemoves ⟨false, 16, 16⟩ = false ∧
      sendOutcome ⟨false, 16, 16⟩ = SendOutcome.waits := by
  decide

/-- C3 (amended): during broadcast a subscriber is marked failed and removed
exactly when its channel is closed (its receiver was dropped); a full queue
with a live receiver makes the send wait for capacity rather than fail, and
the listener table afterwards keeps exactly the non-closed subscribers. -/
theorem c3_broadcast_removal (l : ListenerView) (ls : List ListenerView) :
    (broadcastRemoves l = true ↔ l.closed = true) ∧
      (sendOutcome l = SendOutcome.waits ↔ l.closed = false ∧ l.capacity ≤ l.queued) ∧
      broadcastSurvivors ls = ls.filter fun v => !v.closed := by
  refine ⟨by rw [broadcastRemoves_eq], ?_, ?_⟩
  · unfold sendOutcome
    by_cases h : l.closed
    · simp [h]
    · by_cases h2 : l.queued < l.capacity <;>
        simp [h, h2, Nat.not_lt.mp, Nat.le_of_not_lt]
  · unfold broadcastSurvivors
    refine List.filter_congr fun v _ => ?_
    rw [broadcastRemoves_eq]

/-- Instantiation of the amended C3 statement at a closed listener. -/
theorem c3_broadcast_removal_witness :
    (broadcastRemoves ⟨true, 0, 16⟩ = true ↔
        (⟨true, 0, 16⟩ : ListenerView).closed = true) ∧
      (sendOutcome ⟨true, 0, 16⟩ = SendOutcome.waits ↔
        (⟨true, 0, 16⟩ : ListenerView).closed = false ∧
          (⟨true, 0, 16⟩ : ListenerView).capacity ≤
            (⟨true, 0, 16⟩ : ListenerView).queued) ∧
      broadcastSurvivors [⟨true, 0, 16⟩] =
        [(⟨true, 0, 16⟩ : ListenerView)].filter fun v => !v.closed :=
  c3_broadcast_removal ⟨true, 0, 16⟩ [⟨true, 0, 16⟩]

/- ## C4: non-2xx responses -/

/-- C4 is violated by the code: `lookup_sbom` never examines the HTTP
status.  A 404 response whose body reads `not found` yields a successful
SBOM, and `Scanner::scan` latches it onto the entry as `Found`, not `Err`;
only transport and body-read errors become `Err`. -/
theorem c4_non2xx_not_failure :
    lookup_sbom (.ok ⟨404, .ok "not found"⟩) = .ok ⟨"not found"⟩ ∧
      scanState (lookup_sbom (.ok ⟨404, .ok "not found"⟩)) = .Found ⟨"not found"⟩ ∧
      scanApply c4map ⟨"img"⟩ (lookup_sbom (.ok ⟨404, .ok "not found"⟩)) ⟨"img"⟩ =
        some ⟨{⟨"ns", "p"⟩}, .Found ⟨"not found"⟩⟩ ∧
      ∀ e : String, scanState (.error e) = .Err e := by
  refine ⟨rfl, rfl, ?_, fun e => rfl⟩
  decide

/- ## C9: the `Missing` variant is never produced -/

theorem mutate_state_noMissing {m : MapSt} {k : ImageRef}
    {f : Option Image → Option Image} (h : NoMissing m)
    (hf : ∀ img, f (m k) = some img → img.sbom ≠ SbomState.Missing) :
    NoMissing (mutate_state m k f) := by
  intro k' img hk'
  unfold mutate_state at hk'
  rw [Function.update_apply] at hk'
  by_cases hkk : k' = k
  · rw [if_pos hkk] at hk'
    exact hf img hk'
  · rw [if_neg hkk] at hk'
    exact h k' img hk'

theorem runnerStep_noMissing {m : MapSt} (evt : Event ImageRef PodRef Unit)
    (h : NoMissing m) : NoMissing (runnerStep m evt) := by
  cases evt with
  | added image st =>
    simp only [runnerStep]
    refine mutate_state_noMissing h fun img hk => ?_
    cases hmi : m image with
    | none => rw [hmi] at hk; cases hk; simp
    | some c =>
      rw [hmi] at hk
      cases hk
      exact h image c hmi
  | modified image st =>
    simp only [runnerStep]
    refine mutate_state_noMissing h fun img hk => ?_
    cases hmi : m image with
    | none => rw [hmi] at hk; cases hk; simp
    | some c =>
      rw [hmi] at hk
      cases hk
      exact h image c hmi
  | removed image =>
    simp only [runnerStep]
    exact mutate_state_noMissing h fun img hk => by cases hk
  | restart st =>
    simp only [runnerStep, set_state]
    intro k img hk
    have hk' : Option.map
        (fun v => ({ pods := v.owners, sbom := SbomState.Scheduled } : Image))
        (st k) = some img := hk
    obtain ⟨v, _, himg⟩ := Option.map_eq_some'.mp hk'
    rw [← himg]
    simp

theorem scanApply_noMissing {m : MapSt} (image : ImageRef)
    (result : Except String SBOM) (h : NoMissing m) :
    NoMissing (scanApply m image result) := by
  unfold scanApply
  refine mutate_state_noMissing h fun img hk => ?_
  cases hmi : m image with
  | none => rw [hmi] at hk; cases hk
  | some c =>
    rw [hmi] at hk
    cases hk
    cases result <;> simp [scanState]

theorem runMirror_noMissing {m : MapSt} (steps : List MirrorStep)
    (h : NoMissing m) : NoMissing (runMirror m steps) := by
  induction steps generalizing m with
  | nil => exact h
  | cons step rest ih =>
    cases step with
    | upstream evt => exact ih (runnerStep_noMissing evt h)
    | scan image result => exact ih (scanApply_noMissing image result h)

/-- C9: starting from the empty enrichment map, any interleaving of mirror
loop steps and scan write-backs leaves no entry with
`SbomState::Missing` — the mirror loop writes `Scheduled` or preserves the
entry's SBOM state, and every scan write-back is `Found` or `Err`. -/
theorem c9_no_missing (steps : List MirrorStep) :
    NoMissing (runMirror emptyMap steps) :=
  runMirror_noMissing steps fun _ _ hk => by cases hk

/-- Instantiation of C9 on a concrete run: an image is mirrored and then
scanned successfully. -/
theorem c9_no_missing_witness : NoMissing (runMirror emptyMap c9steps) :=
  c9_no_missing c9steps

/- ## C6: SBOM purl resolution -/

theorem rsplitOnceCh_eq_none {l : List Char} {c : Char} :
    rsplitOnceCh l c = none ↔ c ∉ l := by
  induction l with
  | nil => simp [rsplitOnceCh]
  | cons x xs ih =>
    simp only [rsplitOnceCh]
    cases hx : rsplitOnceCh xs c with
    | some p =>
      simp only []
      constructor
      · intro h; cases h
      · intro h
        exact absurd (ih.mpr fun hc => h (List.mem_cons_of_mem x hc)) (by simp [hx])
    | none =>
      by_cases hxc : x = c
      · simp [hxc]
      · simp only [if_neg hxc, List.mem_cons]
        have hcx : ¬(c = x ∨ c ∈ xs) := by
          rintro (h | h)
          · exact hxc h.symm
          · exact ih.mp hx h
        simp [hcx]

theorem rsplitOnceCh_append {b d : List Char} {c : Char} (h : c ∉ d) :
    rsplitOnceCh (b ++ c :: d) c = some (b, d) := by
  induction b with
  | nil => simp [rsplitOnceCh, rsplitOnceCh_eq_none.mpr h]
  | cons x xs ih => simp [rsplitOnceCh, ih]

/-- C6: `Scanner::lookup` splits the image at the rightmost `@`; it fails
with the `Unable to create PURL` message when there is no `@` or when the
digest does not start with `sha256:`, and otherwise builds the package URL
`pkg:oci/<name>@<digest>` where the name is the last `/`-separated
component of the base. -/
theorem c6_lookup_purl (image base digest : String) :
    ('@' ∉ image.data →
        Scanner.lookup image = .error ("Unable to create PURL for: " ++ image)) ∧
      (image.data = base.data ++ '@' :: digest.data → '@' ∉ digest.data →
        Scanner.lookup image =
          if strStartsWith digest "sha256:" then
            .ok ⟨"oci", lastSlashComponent base, some digest⟩
          else .error ("Unable to create PURL for: " ++ image)) ∧
      PackageUrl.render ⟨"oci", lastSlashComponent base, some digest⟩ =
        "pkg:oci/" ++ lastSlashComponent base ++ "@" ++ digest := by
  refine ⟨?_, ?_, ?_⟩
  · intro h
    unfold Scanner.lookup rsplitOnce
    rw [rsplitOnceCh_eq_none.mpr h]
    rfl
  · intro heq hd
    have hsplit : rsplitOnceCh image.data '@' = some (base.data, digest.data) := by
      rw [heq]
      exact rsplitOnceCh_append hd
    unfold Scanner.lookup rsplitOnce
    rw [hsplit]
    rfl
  · show "pkg:" ++ "oci" ++ "/" ++ lastSlashComponent base ++ ("@" ++ digest) = _
    have h1 : "pkg:" ++ "oci" ++ "/" = "pkg:oci/" := rfl
    rw [h1]
    simp [String.append_assoc]

/-- Instantiation of C6 on the concrete image of the spec's scenario
table. -/
theorem c6_lookup_purl_witness :
    Scanner.lookup "registry.io/foo/bar@sha256:deadbeef" =
        .ok ⟨"oci", "bar", some "sha256:deadbeef"⟩ ∧
      PackageUrl.render ⟨"oci", "bar", some "sha256:deadbeef"⟩ =
        "pkg:oci/bar@sha256:deadbeef" := by
  constructor
  · have h := (c6_lookup_purl "registry.io/foo/bar@sha256:deadbeef"
      "registry.io/foo/bar" "sha256:deadbeef").2.1 (by decide) (by decide)
    rw [h]
    decide
  · decide

/- ## Store loop lemmas -/

theorem listenMap_nil (l : List (Nat × List (Event K O V))) :
    (l.map fun q => (q.1, q.2 ++ ([] : List (Event K O V)))) = l := by
  simp

theorem listenMap_comp (l : List (Nat × List (Event K O V)))
    (d0 d1 : List (Event K O V)) :
    ((l.map fun q => (q.1, q.2 ++ d0)).map fun q => (q.1, q.2 ++ d1)) =
      l.map fun q => (q.1, q.2 ++ (d0 ++ d1)) := by
  simp [List.map_map, Function.comp, List.append_assoc]

theorem deleteStep_spec [DecidableEq K] [DecidableEq O] (p : O) (f : K → V → V)
    (acc : Inner K O V × List (Event K O V)) (x : K) :
    ∃ d,
      (deleteStep p f acc x).2 = acc.2 ++ d ∧
        (deleteStep p f acc x).1.pods = acc.1.pods ∧
        (deleteStep p f acc x).1.listeners =
          acc.1.listeners.map (fun q => (q.1, q.2 ++ d)) ∧
        (∀ e ∈ d, e.isRestart = false) ∧
        (∀ k, ownersAt (deleteStep p f acc x).1.images k =
          if k = x then (ownersAt acc.1.images k).erase p
          else ownersAt acc.1.images k) ∧
        ((∀ k e, acc.1.images k = some e → e.owners ≠ ∅) →
          ∀ k e, (deleteStep p f acc x).1.images k = some e → e.owners ≠ ∅) := by
  cases him : acc.1.images x with
  | none =>
    have hstep : deleteStep p f acc x = acc := by
      simp [deleteStep, him]
    rw [hstep]
    refine ⟨[], by simp, rfl, (listenMap_nil _).symm, by simp, ?_, fun hne => hne⟩
    intro k
    by_cases hk : k = x
    · subst hk
      simp [ownersAt_of_eq_none him]
    · simp [hk]
  | some st =>
    by_cases hemp : st.owners.erase p = ∅
    · have hstep : deleteStep p f acc x =
          ({ images := Function.update acc.1.images x none, pods := acc.1.pods,
              listeners :=
                acc.1.listeners.map fun q => (q.1, q.2 ++ [Event.removed x]) },
            acc.2 ++ [Event.removed x]) := by
        simp [deleteStep, him, hemp, Inner.broadcast]
      rw [hstep]
      refine ⟨[.removed x], rfl, rfl, rfl, by simp [Event.isRestart], ?_, ?_⟩
      · intro k
        rw [ownersAt_update]
        by_cases hk : k = x
        · subst hk
          simp [ownersAt_of_eq_some him, hemp]
        · simp [hk]
      · intro hne k e hk
        simp only at hk
        rw [Function.update_apply] at hk
        by_cases hk2 : k = x
        · rw [if_pos hk2] at hk
          cases hk
        · rw [if_neg hk2] at hk
          exact hne k e hk
    · have hstep : deleteStep p f acc x =
          ({ images := Function.update acc.1.images x
                (some ⟨st.owners.erase p, f x st.state⟩),
              pods := acc.1.pods,
              listeners := acc.1.listeners.map fun q =>
                (q.1, q.2 ++ [Event.modified x ⟨st.owners.erase p, f x st.state⟩]) },
            acc.2 ++ [Event.modified x ⟨st.owners.erase p, f x st.state⟩]) := by
        simp [deleteStep, him, hemp, Inner.broadcast]
      rw [hstep]
      refine ⟨[.modified x ⟨st.owners.erase p, f x st.state⟩], rfl, rfl, rfl,
        by simp [Event.isRestart], ?_, ?_⟩
      · intro k
        rw [ownersAt_update]
        by_cases hk : k = x
        · subst hk
          simp [ownersAt_of_eq_some him]
        · simp [hk]
      · intro hne k e hk
        simp only at hk
        rw [Function.update_apply] at hk
        by_cases hk2 : k = x
        · rw [if_pos hk2] at hk
          cases hk
          exact hemp
        · rw [if_neg hk2] at hk
          exact hne k e hk

theorem deleteLoop_spec [DecidableEq K] [DecidableEq O] (p : O) (f : K → V → V)
    (L : List K) :
    ∀ acc : Inner K O V × List (Event K O V),
      ∃ d,
        (L.foldl (deleteStep p f) acc).2 = acc.2 ++ d ∧
          (L.foldl (deleteStep p f) acc).1.pods = acc.1.pods ∧
          (L.foldl (deleteStep p f) acc).1.listeners =
            acc.1.listeners.map (fun q => (q.1, q.2 ++ d)) ∧
          (∀ e ∈ d, e.isRestart = false) ∧
          (∀ k, ownersAt (L.foldl (deleteStep p f) acc).1.images k =
            if k ∈ L then (ownersAt acc.1.images k).erase p
            else ownersAt acc.1.images k) ∧
          ((∀ k e, acc.1.images k = some e → e.owners ≠ ∅) →
            ∀ k e, (L.foldl (deleteStep p f) acc).1.images k = some e →
              e.owners ≠ ∅) := by
  induction L with
  | nil =>
    intro acc
    exact ⟨[], by simp, rfl, (listenMap_nil _).symm, by simp,
      by simp, fun hne => hne⟩
  | cons x xs ih =>
    intro acc
    obtain ⟨d0, he0, hp0, hl0, hr0, ho0, hn0⟩ := deleteStep_spec p f acc x
    obtain ⟨d1, he1, hp1, hl1, hr1, ho1, hn1⟩ := ih (deleteStep p f acc x)
    refine ⟨d0 ++ d1, ?_, ?_, ?_, ?_, ?_, ?_⟩
    · rw [List.foldl_cons, he1, he0, List.append_assoc]
    · rw [List.foldl_cons, hp1, hp0]
    · rw [List.foldl_cons, hl1, hl0, listenMap_comp]
    · intro e he
      rcases List.mem_append.mp he with h | h
      · exact hr0 e h
      · exact hr1 e h
    · intro k
      rw [List.foldl_cons, ho1 k, ho0 k]
      by_cases hx : k = x <;> by_cases hxs : k ∈ xs <;>
        simp [hx, hxs, Finset.erase_idem, List.mem_cons]
    · intro hne
      rw [List.foldl_cons]
      exact hn1 (hn0 hne)

theorem delete_spec [DecidableEq K] [DecidableEq O] (s : Inner K O V) (p : O)
    (f : K → V → V) :
    (∀ o, (s.delete p f).1.pods o = if o = p then none else s.pods o) ∧
      (s.delete p f).1.listeners =
        s.listeners.map (fun q => (q.1, q.2 ++ (s.delete p f).2)) ∧
      (∀ e ∈ (s.delete p f).2, e.isRestart = false) ∧
      (∀ k, ownersAt (s.delete p f).1.images k =
        if k ∈ keysAt s.pods p then (ownersAt s.images k).erase p
        else ownersAt s.images k) ∧
      ((∀ k e, s.images k = some e → e.owners ≠ ∅) →
        ∀ k e, (s.delete p f).1.images k = some e → e.owners ≠ ∅) := by
  cases hp : s.pods p with
  | none =>
    refine ⟨?_, ?_, ?_, ?_, ?_⟩ <;>
      simp only [Inner.delete, hp]
    · intro o
      by_cases ho : o = p
      · subst ho; rw [if_pos rfl, hp]
      · rw [if_neg ho]
    · exact (listenMap_nil _).symm
    · simp
    · intro k
      simp [keysAt, hp]
    · exact fun hne => hne
  | some L =>
    obtain ⟨d, he, hpods, hl, hr, ho, hn⟩ :=
      deleteLoop_spec p f L ({ s with pods := Function.update s.pods p none }, [])
    have hres : s.delete p f =
        L.foldl (deleteStep p f)
          ({ s with pods := Function.update s.pods p none }, []) := by
      simp [Inner.delete, hp]
    have he' : (L.foldl (deleteStep p f)
        ({ s with pods := Function.update s.pods p none }, [])).2 = d := by
      rw [he]
      simp
    rw [hres]
    refine ⟨?_, ?_, ?_, ?_, hn⟩
    · intro o
      rw [hpods]
      simp [Function.update_apply]
    · rw [hl, he']
    · intro e hee
      rw [he'] at hee
      exact hr e hee
    · intro k
      rw [ho k]
      simp [keysAt, hp]

theorem applyStep_spec [DecidableEq K] [DecidableEq O] (p : O) (i : K → V)
    (f : K → V → V) (acc : Inner K O V × List (Event K O V)) (x : K) :
    ∃ d,
      (applyStep p i f acc x).2 = acc.2 ++ d ∧
        (applyStep p i f acc x).1.pods = acc.1.pods ∧
        (applyStep p i f acc x).1.listeners =
          acc.1.listeners.map (fun q => (q.1, q.2 ++ d)) ∧
        (∀ e ∈ d, e.isRestart = false) ∧
        (∀ k, ownersAt (applyStep p i f acc x).1.images k =
          if k = x then insert p (ownersAt acc.1.images k)
          else ownersAt acc.1.images k) ∧
        ((∀ k e, acc.1.images k = some e → e.owners ≠ ∅) →
          ∀ k e, (applyStep p i f acc x).1.images k = some e → e.owners ≠ ∅) := by
  cases him : acc.1.images x with
  | none =>
    have hstep : applyStep p i f acc x =
        ({ images := Function.update acc.1.images x (some ⟨{p}, i x⟩),
            pods := acc.1.pods,
            listeners := acc.1.listeners.map fun q =>
              (q.1, q.2 ++ [Event.added x ⟨{p}, i x⟩]) },
          acc.2 ++ [Event.added x ⟨{p}, i x⟩]) := by
      simp [applyStep, him, Inner.broadcast]
    rw [hstep]
    refine ⟨[.added x ⟨{p}, i x⟩], rfl, rfl, rfl, by simp [Event.isRestart], ?_, ?_⟩
    · intro k
      rw [ownersAt_update]
      by_cases hk : k = x
      · subst hk
        simp [ownersAt_of_eq_none him]
      · simp [hk]
    · intro hne k e hk
      simp only at hk
      rw [Function.update_apply] at hk
      by_cases hk2 : k = x
      · rw [if_pos hk2] at hk
        cases hk
        simp
      · rw [if_neg hk2] at hk
        exact hne k e hk
  | some st =>
    by_cases hmem : p ∈ st.owners
    · have hstep : applyStep p i f acc x =
          ({ images := Function.update acc.1.images x
              (some ⟨insert p st.owners, f x st.state⟩),
              pods := acc.1.pods, listeners := acc.1.listeners },
            acc.2) := by
        simp [applyStep, him, hmem]
      rw [hstep]
      refine ⟨[], by simp, rfl, (listenMap_nil _).symm, by simp, ?_, ?_⟩
      · intro k
        rw [ownersAt_update]
        by_cases hk : k = x
        · subst hk
          simp [ownersAt_of_eq_some him]
        · simp [hk]
      · intro hne k e hk
        simp only at hk
        rw [Function.update_apply] at hk
        by_cases hk2 : k = x
        · rw [if_pos hk2] at hk
          cases hk
          exact Finset.insert_ne_empty _ _
        · rw [if_neg hk2] at hk
          exact hne k e hk
    · have hstep : applyStep p i f acc x =
          ({ images := Function.update acc.1.images x
              (some ⟨insert p st.owners, f x st.state⟩),
              pods := acc.1.pods,
              listeners := acc.1.listeners.map fun q =>
                (q.1, q.2 ++ [Event.modified x ⟨insert p st.owners, f x st.state⟩]) },
            acc.2 ++ [Event.modified x ⟨insert p st.owners, f x st.state⟩]) := by
        simp [applyStep, him, hmem, Inner.broadcast]
      rw [hstep]
      refine ⟨[.modified x ⟨insert p st.owners, f x st.state⟩], rfl, rfl, rfl,
        by simp [Event.isRestart], ?_, ?_⟩
      · intro k
        rw [ownersAt_update]
        by_cases hk : k = x
        · subst hk
          simp [ownersAt_of_eq_some him]
        · simp [hk]
      · intro hne k e hk
        simp only at hk
        rw [Function.update_apply] at hk
        by_cases hk2 : k = x
        · rw [if_pos hk2] at hk
          cases hk
          exact Finset.insert_ne_empty _ _
        · rw [if_neg hk2] at hk
          exact hne k e hk

theorem applyLoop_spec [DecidableEq K] [DecidableEq O] (p : O) (i : K → V)
    (f : K → V → V) (L : List K) :
    ∀ acc : Inner K O V × List (Event K O V),
      ∃ d,
        (L.foldl (applyStep p i f) acc).2 = acc.2 ++ d ∧
          (L.foldl (applyStep p i f) acc).1.pods = acc.1.pods ∧
          (L.foldl (applyStep p i f) acc).1.listeners =
            acc.1.listeners.map (fun q => (q.1, q.2 ++ d)) ∧
          (∀ e ∈ d, e.isRestart = false) ∧
          (∀ k, ownersAt (L.foldl (applyStep p i f) acc).1.images k =
            if k ∈ L then insert p (ownersAt acc.1.images k)
            else ownersAt acc.1.images k) ∧
          ((∀ k e, acc.1.images k = some e → e.owners ≠ ∅) →
            ∀ k e, (L.foldl (applyStep p i f) acc).1.images k = some e →
              e.owners ≠ ∅) := by
  induction L with
  | nil =>
    intro acc
    exact ⟨[], by simp, rfl, (listenMap_nil _).symm, by simp,
      by simp, fun hne => hne⟩
  | cons x xs ih =>
    intro acc
    obtain ⟨d0, he0, hp0, hl0, hr0, ho0, hn0⟩ := applyStep_spec p i f acc x
    obtain ⟨d1, he1, hp1, hl1, hr1, ho1, hn1⟩ := ih (applyStep p i f acc x)
    refine ⟨d0 ++ d1, ?_, ?_, ?_, ?_, ?_, ?_⟩
    · rw [List.foldl_cons, he1, he0, List.append_assoc]
    · rw [List.foldl_cons, hp1, hp0]
    · rw [List.foldl_cons, hl1, hl0, listenMap_comp]
    · intro e he
      rcases List.mem_append.mp he with h | h
      · exact hr0 e h
      · exact hr1 e h
    · intro k
      rw [List.foldl_cons, ho1 k, ho0 k]
      by_cases hx : k = x <;> by_cases hxs : k ∈ xs <;>
        simp [hx, hxs, Finset.insert_idem, List.mem_cons]
    · intro hne
      rw [List.foldl_cons]
      exact hn1 (hn0 hne)

theorem applyAdd_spec [DecidableEq K] [DecidableEq O] (s : Inner K O V) (p : O)
    (keys : List K) (i : K → V) (f : K → V → V) (evs : List (Event K O V)) :
    ∃ d,
      (s.applyAdd p keys i f evs).2 = evs ++ d ∧
        (∀ o, (s.applyAdd p keys i f evs).1.pods o =
          if o = p then some keys else s.pods o) ∧
        (s.applyAdd p keys i f evs).1.listeners =
          s.listeners.map (fun q => (q.1, q.2 ++ d)) ∧
        (∀ e ∈ d, e.isRestart = false) ∧
        (∀ k, ownersAt (s.applyAdd p keys i f evs).1.images k =
          if k ∈ keys then insert p (ownersAt s.images k)
          else ownersAt s.images k) ∧
        ((∀ k e, s.images k = some e → e.owners ≠ ∅) →
          ∀ k e, (s.applyAdd p keys i f evs).1.images k = some e →
            e.owners ≠ ∅) := by
  obtain ⟨d, he, hpods, hl, hr, ho, hn⟩ := applyLoop_spec p i f keys (s, evs)
  refine ⟨d, ?_, ?_, ?_, hr, ?_, ?_⟩ <;>
    simp only [Inner.applyAdd]
  · exact he
  · intro o
    rw [Function.update_apply, hpods]
  · exact hl
  · exact ho
  · exact hn

/- ## Consistency preservation -/

theorem delete_consistent [DecidableEq K] [DecidableEq O] (s : Inner K O V)
    (p : O) (f : K → V → V) (h : s.Consistent) :
    (s.delete p f).1.Consistent ∧
      (∀ k, p ∉ ownersAt (s.delete p f).1.images k) ∧
      (s.delete p f).1.pods p = none := by
  obtain ⟨hpods, _, _, ho, hn⟩ := delete_spec s p f
  obtain ⟨hbid, hne⟩ := h
  have hkeysAt : ∀ o, o ≠ p → keysAt (s.delete p f).1.pods o = keysAt s.pods o := by
    intro o hop
    unfold keysAt
    rw [hpods o, if_neg hop]
  have hkeysP : keysAt (s.delete p f).1.pods p = [] := by
    unfold keysAt
    rw [hpods p, if_pos rfl]
    rfl
  have hfree : ∀ k, p ∉ ownersAt (s.delete p f).1.images k := by
    intro k
    rw [ho k]
    by_cases hkL : k ∈ keysAt s.pods p
    · rw [if_pos hkL]
      exact Finset.not_mem_erase p _
    · rw [if_neg hkL]
      exact fun hmem => hkL ((hbid k p).mp hmem)
  refine ⟨⟨?_, hn hne⟩, hfree, by rw [hpods p, if_pos rfl]⟩
  intro k o
  by_cases hop : o = p
  · subst hop
    rw [hkeysP]
    exact iff_of_false (hfree k) (by simp)
  · rw [hkeysAt o hop, ho k]
    by_cases hkL : k ∈ keysAt s.pods p
    · rw [if_pos hkL, Finset.mem_erase]
      constructor
      · exact fun hm => (hbid k o).mp hm.2
      · exact fun hm => ⟨hop, (hbid k o).mpr hm⟩
    · rw [if_neg hkL]
      exact hbid k o

theorem applyAdd_consistent [DecidableEq K] [DecidableEq O] (s : Inner K O V)
    (p : O) (keys : List K) (i : K → V) (f : K → V → V)
    (evs : List (Event K O V)) (h : s.Consistent)
    (hfree : ∀ k, p ∉ ownersAt s.images k) :
    (s.applyAdd p keys i f evs).1.Consistent := by
  obtain ⟨d, _, hpods, _, _, ho, hn⟩ := applyAdd_spec s p keys i f evs
  refine ⟨?_, hn h.2⟩
  intro k o
  have hkeysP : keysAt (s.applyAdd p keys i f evs).1.pods p = keys := by
    unfold keysAt
    rw [hpods p, if_pos rfl]
    rfl
  have hkeysAt : ∀ o, o ≠ p →
      keysAt (s.applyAdd p keys i f evs).1.pods o = keysAt s.pods o := by
    intro o hop
    unfold keysAt
    rw [hpods o, if_neg hop]
  rw [ho k]
  by_cases hk : k ∈ keys
  · rw [if_pos hk]
    by_cases hop : o = p
    · subst hop
      rw [hkeysP]
      exact iff_of_true (Finset.mem_insert_self _ _) hk
    · rw [hkeysAt o hop, Finset.mem_insert]
      constructor
      · rintro (hcontra | hm)
        · exact absurd hcontra hop
        · exact (h.1 k o).mp hm
      · exact fun hm => Or.inr ((h.1 k o).mpr hm)
  · rw [if_neg hk]
    by_cases hop : o = p
    · subst hop
      rw [hkeysP]
      exact iff_of_false (hfree k) hk
    · rw [hkeysAt o hop]
      exact h.1 k o

theorem apply_consistent [DecidableEq K] [DecidableEq O] (s : Inner K O V)
    (p : O) (keys : List K) (i : K → V) (f : K → V → V) (h : s.Consistent) :
    (s.apply p keys i f).1.Consistent := by
  cases hp : s.pods p with
  | some cur =>
    by_cases heq : cur.toFinset = keys.toFinset
    · simpa [Inner.apply, hp, heq] using h
    · obtain ⟨hd, hdfree, _⟩ := delete_consistent s p f h
      have hres : s.apply p keys i f =
          (s.delete p f).1.applyAdd p keys i f (s.delete p f).2 := by
        simp [Inner.apply, hp, heq]
      rw [hres]
      exact applyAdd_consistent _ p keys i f _ hd hdfree
  | none =>
    have hfree : ∀ k, p ∉ ownersAt s.images k := by
      intro k hmem
      have := (h.1 k p).mp hmem
      rw [keysAt, hp] at this
      cases this
    have hres : s.apply p keys i f = s.applyAdd p keys i f [] := by
      simp [Inner.apply, hp]
    rw [hres]
    exact applyAdd_consistent s p keys i f [] h hfree

theorem runOp_consistent [DecidableEq K] [DecidableEq O] (s : Inner K O V)
    (op : Op K O V) (h : s.Consistent) (hargs : op.ConsistentArgs) :
    (s.runOp op).1.Consistent := by
  cases op with
  | applyOp o keys i f => exact apply_consistent s o keys i f h
  | deleteOp o f => exact (delete_consistent s o f h).1
  | resetOp im pd => exact hargs

theorem runOps_consistent [DecidableEq K] [DecidableEq O] (ops : List (Op K O V)) :
    ∀ s : Inner K O V, s.Consistent → (∀ op ∈ ops, op.ConsistentArgs) →
      (s.runOps ops).1.Consistent := by
  induction ops with
  | nil => exact fun s h _ => h
  | cons op rest ih =>
    intro s h hargs
    exact ih (s.runOp op).1
      (runOp_consistent s op h (hargs op (List.mem_cons_self op rest)))
      fun op' hop' => hargs op' (List.mem_cons_of_mem op hop')

theorem default_consistent : (Inner.default K O V).Consistent := by
  constructor
  · intro k o
    simp [ownersAt, keysAt, Inner.default]
  · intro k e hk
    cases hk

/-- C1: after any sequence of `apply` and `delete` calls, and of `reset`
calls whose argument maps are themselves consistent, starting from the
empty store, the bidirectional consistency invariant holds: an owner is a
member of a key's owner set iff the key is a member of that owner's key
set, and an entry exists only with a non-empty owner set. -/
theorem c1_bidirectional_invariant [DecidableEq K] [DecidableEq O]
    (ops : List (Op K O V)) (h : ∀ op ∈ ops, op.ConsistentArgs) :
    ((Inner.default K O V).runOps ops).1.Consistent :=
  runOps_consistent ops (Inner.default K O V) default_consistent h

/-- Instantiation of C1 on a concrete apply/delete sequence. -/
theorem c1_bidirectional_invariant_witness :
    (∀ op ∈ c1ops, op.ConsistentArgs) ∧
      ((Inner.default Nat Nat Nat).runOps c1ops).1.Consistent := by
  have h : ∀ op ∈ c1ops, op.ConsistentArgs := by
    intro op hop
    rcases List.mem_cons.mp hop with h1 | h1
    · subst h1; trivial
    · rcases List.mem_cons.mp h1 with h2 | h2
      · subst h2; trivial
      · cases h2
  exact ⟨h, c1_bidirectional_invariant c1ops h⟩

/- ## C8: apply is idempotent -/

theorem apply_pods_self [DecidableEq K] [DecidableEq O] (s : Inner K O V) (p : O)
    (keys : List K) (i : K → V) (f : K → V → V) :
    ∃ cur, (s.apply p keys i f).1.pods p = some cur ∧
      cur.toFinset = keys.toFinset := by
  cases hp : s.pods p with
  | some cur =>
    by_cases heq : cur.toFinset = keys.toFinset
    · refine ⟨cur, ?_, heq⟩
      simp [Inner.apply, hp, heq]
    · refine ⟨keys, ?_, rfl⟩
      have hres : s.apply p keys i f =
          (s.delete p f).1.applyAdd p keys i f (s.delete p f).2 := by
        simp [Inner.apply, hp, heq]
      rw [hres]
      obtain ⟨d, _, hpods, _⟩ := applyAdd_spec (s.delete p f).1 p keys i f (s.delete p f).2
      rw [hpods p, if_pos rfl]
  | none =>
    refine ⟨keys, ?_, rfl⟩
    have hres : s.apply p keys i f = s.applyAdd p keys i f [] := by
      simp [Inner.apply, hp]
    rw [hres]
    obtain ⟨d, _, hpods, _⟩ := applyAdd_spec s p keys i f []
    rw [hpods p, if_pos rfl]

/-- C8: calling `apply` a second time with the same owner and the same key
set is a complete no-op — the second call emits no events and returns the
store unchanged, by the equal-key-set short circuit. -/
theorem c8_apply_idempotent [DecidableEq K] [DecidableEq O] (s : Inner K O V)
    (p : O) (keys : List K) (i : K → V) (f : K → V → V) :
    (s.apply p keys i f).1.apply p keys i f = ((s.apply p keys i f).1, []) := by
  obtain ⟨cur, hcur, hts⟩ := apply_pods_self s p keys i f
  generalize hgen : (s.apply p keys i f).1 = s1 at hcur ⊢
  simp [Inner.apply, hcur, hts]

/-- Instantiation of C8 at a concrete store and key set. -/
theorem c8_apply_idempotent_witness :
    (((Inner.default Nat Nat Nat).apply 0 [1] (fun _ => 0) fun _ v => v).1.apply 0 [1]
        (fun _ => 0) fun _ v => v) =
      ((((Inner.default Nat Nat Nat).apply 0 [1] (fun _ => 0) fun _ v => v).1), []) :=
  c8_apply_idempotent (Inner.default Nat Nat Nat) 0 [1] (fun _ => 0) fun _ v => v

/- ## C5: apply with an empty key set versus delete -/

/-- C5 is false as stated: on the empty store, `apply(0, ∅)` and
`delete(0)` produce different states — `apply` records an empty key set
for the owner while `delete` leaves the owner untracked. -/
theorem c5_apply_empty_eq_delete_false :
    ¬((Inner.default Nat Nat Unit).apply 0 [] (fun _ => ()) (fun _ v => v) =
      (Inner.default Nat Nat Unit).delete 0 fun _ v => v) := by
  intro hcontra
  have h := congrArg (fun r => r.1.pods 0) hcontra
  simp [Inner.apply, Inner.delete, Inner.default, Inner.applyAdd] at h

/-- C5 (amended): `apply(owner, ∅)` emits exactly the same events as
`delete(owner)` and agrees with it on the images map, the listener queues
and every other owner's `pods` entry; the two differ only at the owner
itself, where `apply` always leaves `pods[owner] = ∅` while `delete`
removes the entry. -/
theorem c5_apply_empty_delete [DecidableEq K] [DecidableEq O] (s : Inner K O V)
    (p : O) (i : K → V) (f : K → V → V) :
    (s.apply p [] i f).2 = (s.delete p f).2 ∧
      (s.apply p [] i f).1.images = (s.delete p f).1.images ∧
      (s.apply p [] i f).1.listeners = (s.delete p f).1.listeners ∧
      (∀ o, o ≠ p → (s.apply p [] i f).1.pods o = (s.delete p f).1.pods o) ∧
      (s.apply p [] i f).1.pods p = some [] ∧
      (s.delete p f).1.pods p = none := by
  cases hp : s.pods p with
  | none =>
    have ha : s.apply p [] i f =
        ({ s with pods := Function.update s.pods p (some []) }, []) := by
      simp [Inner.apply, hp, Inner.applyAdd]
    have hd : s.delete p f = (s, []) := by
      simp [Inner.delete, hp]
    rw [ha, hd]
    refine ⟨rfl, rfl, rfl, ?_, ?_, hp⟩
    · intro o hop
      simp [Function.update_apply, hop]
    · simp
  | some cur =>
    by_cases heq : cur.toFinset = ([] : List K).toFinset
    · have hcur : cur = [] := by
        have h0 : cur.toFinset = ∅ := by simpa using heq
        exact (List.toFinset_eq_empty_iff cur).mp h0
      have ha : s.apply p [] i f = (s, []) := by
        simp [Inner.apply, hp, heq]
      have hd : s.delete p f =
          ({ s with pods := Function.update s.pods p none }, []) := by
        simp [Inner.delete, hp, hcur]
      rw [ha, hd]
      refine ⟨rfl, rfl, rfl, ?_, ?_, ?_⟩
      · intro o hop
        simp [Function.update_apply, hop]
      · rw [hp, hcur]
      · simp
    · have hne : cur ≠ [] := fun hc => heq (by simp [hc])
      have ha : s.apply p [] i f =
          ({ (s.delete p f).1 with
              pods := Function.update (s.delete p f).1.pods p (some []) },
            (s.delete p f).2) := by
        simp [Inner.apply, hp, heq, hne, Inner.applyAdd]
      rw [ha]
      refine ⟨rfl, rfl, rfl, ?_, ?_, ?_⟩
      · intro o hop
        simp [Function.update_apply, hop]
      · simp
      · rw [(delete_spec s p f).1 p, if_pos rfl]

/-- Instantiation of the amended C5 statement on the empty store. -/
theorem c5_apply_empty_delete_witness :
    ((Inner.default Nat Nat Unit).apply 0 [] (fun _ => ()) fun _ v => v).2 =
        ((Inner.default Nat Nat Unit).delete 0 fun _ v => v).2 ∧
      ((Inner.default Nat Nat Unit).apply 0 [] (fun _ => ()) fun _ v => v).1.images =
        ((Inner.default Nat Nat Unit).delete 0 fun _ v => v).1.images ∧
      ((Inner.default Nat Nat Unit).apply 0 [] (fun _ => ()) fun _ v => v).1.listeners =
        ((Inner.default Nat Nat Unit).delete 0 fun _ v => v).1.listeners ∧
      (∀ o, o ≠ 0 →
        ((Inner.default Nat Nat Unit).apply 0 [] (fun _ => ()) fun _ v => v).1.pods o =
          ((Inner.default Nat Nat Unit).delete 0 fun _ v => v).1.pods o) ∧
      ((Inner.default Nat Nat Unit).apply 0 [] (fun _ => ()) fun _ v => v).1.pods 0 =
        some [] ∧
      ((Inner.default Nat Nat Unit).delete 0 fun _ v => v).1.pods 0 = none :=
  c5_apply_empty_delete (Inner.default Nat Nat Unit) 0 (fun _ => ()) fun _ v => v

/- ## C2: subscription delivers the snapshot first -/

theorem apply_trace [DecidableEq K] [DecidableEq O] (s : Inner K O V) (p : O)
    (keys : List K) (i : K → V) (f : K → V → V) :
    (s.apply p keys i f).1.listeners =
      s.listeners.map (fun q => (q.1, q.2 ++ (s.apply p keys i f).2)) ∧
      ∀ e ∈ (s.apply p keys i f).2, e.isRestart = false := by
  cases hp : s.pods p with
  | some cur =>
    by_cases heq : cur.toFinset = keys.toFinset
    · have ha : s.apply p keys i f = (s, []) := by
        simp [Inner.apply, hp, heq]
      rw [ha]
      exact ⟨(listenMap_nil _).symm, by simp⟩
    · have ha : s.apply p keys i f =
          (s.delete p f).1.applyAdd p keys i f (s.delete p f).2 := by
        simp [Inner.apply, hp, heq]
      obtain ⟨_, hdl, hdr, _, _⟩ := delete_spec s p f
      obtain ⟨d, hae, hap, hal, har, _, _⟩ :=
        applyAdd_spec (s.delete p f).1 p keys i f (s.delete p f).2
      rw [ha]
      constructor
      · rw [hal, hdl, listenMap_comp, ← hae]
      · intro e he
        rw [hae] at he
        rcases List.mem_append.mp he with h | h
        · exact hdr e h
        · exact har e h
  | none =>
    have ha : s.apply p keys i f = s.applyAdd p keys i f [] := by
      simp [Inner.apply, hp]
    obtain ⟨d, hae, hap, hal, har, _, _⟩ := applyAdd_spec s p keys i f []
    rw [ha]
    constructor
    · rw [hal, hae]
      simp
    · intro e he
      rw [hae] at he
      simp only [List.nil_append] at he
      exact har e he

theorem runOp_trace [DecidableEq K] [DecidableEq O] (s : Inner K O V) (op : Op K O V) :
    (s.runOp op).1.listeners =
      s.listeners.map (fun q => (q.1, q.2 ++ (s.runOp op).2)) ∧
      ∀ e ∈ (s.runOp op).2, e.isRestart = true → op.isReset := by
  cases op with
  | applyOp o keys i f =>
    obtain ⟨hl, hr⟩ := apply_trace s o keys i f
    exact ⟨hl, fun e he hres => by rw [hr e he] at hres; cases hres⟩
  | deleteOp o f =>
    obtain ⟨_, hl, hr, _, _⟩ := delete_spec s o f
    exact ⟨hl, fun e he hres => by rw [hr e he] at hres; cases hres⟩
  | resetOp im pd =>
    exact ⟨rfl, fun e _ _ => trivial⟩

theorem runOps_trace [DecidableEq K] [DecidableEq O] (ops : List (Op K O V)) :
    ∀ s : Inner K O V,
      (s.runOps ops).1.listeners =
        s.listeners.map (fun q => (q.1, q.2 ++ (s.runOps ops).2)) ∧
        ∀ e ∈ (s.runOps ops).2, e.isRestart = true → ∃ op ∈ ops, op.isReset := by
  induction ops with
  | nil =>
    intro s
    refine ⟨(listenMap_nil _).symm, ?_⟩
    intro e he
    simp [Inner.runOps] at he
  | cons op rest ih =>
    intro s
    obtain ⟨hl0, hr0⟩ := runOp_trace s op
    obtain ⟨hl1, hr1⟩ := ih (s.runOp op).1
    constructor
    · show ((s.runOp op).1.runOps rest).1.listeners = _
      rw [hl1, hl0, listenMap_comp]
      rfl
    · intro e he hres
      rcases List.mem_append.mp he with h | h
      · exact ⟨op, List.mem_cons_self op rest, hr0 e h hres⟩
      · obtain ⟨op', hop', hop'r⟩ := hr1 e h hres
        exact ⟨op', List.mem_cons_of_mem op hop', hop'r⟩

theorem find_map_append [DecidableEq K] [DecidableEq O]
    (l : List (Nat × List (Event K O V))) (id : Nat) (d : List (Event K O V)) :
    ((l.map fun q => (q.1, q.2 ++ d)).find? fun q => q.1 = id) =
      (l.find? fun q => q.1 = id).map fun q => (q.1, q.2 ++ d) := by
  induction l with
  | nil => rfl
  | cons a l ih =>
    by_cases ha : a.1 = id
    · simp [List.find?_cons, ha]
    · simp [List.find?_cons, ha, ih]

theorem find_append_fresh [DecidableEq K] [DecidableEq O]
    (l : List (Nat × List (Event K O V))) (id : Nat) (q0 : List (Event K O V))
    (h : ∀ q ∈ l, q.1 ≠ id) :
    ((l ++ [(id, q0)]).find? fun q => q.1 = id) = some (id, q0) := by
  induction l with
  | nil => simp [List.find?]
  | cons a l ih =>
    have ha : a.1 ≠ id := h a (List.mem_cons_self a l)
    have hd : decide (a.1 = id) = false := by simp [ha]
    simp only [List.cons_append, List.find?_cons, hd]
    exact ih fun q hq => h q (List.mem_cons_of_mem a hq)

theorem mem_le_foldr_max (l : List Nat) (x : Nat) (h : x ∈ l) :
    x ≤ l.foldr max 0 := by
  induction l with
  | nil => cases h
  | cons a l ih =>
    rcases List.mem_cons.mp h with h1 | h1
    · subst h1
      exact Nat.le_max_left _ _
    · exact Nat.le_trans (ih h1) (Nat.le_max_right _ _)

theorem freshId_not_mem (listeners : List (Nat × List (Event K O V))) :
    ∀ q ∈ listeners, q.1 ≠ freshId listeners := by
  intro q hq hcontra
  have hmem : q.1 ∈ listeners.map Prod.fst := List.mem_map_of_mem Prod.fst hq
  have hle := mem_le_foldr_max _ _ hmem
  rw [hcontra] at hle
  unfold freshId at hle
  omega

/-- C2: for a subscriber registered by `subscribe`, after any subsequent
operation sequence the queue begins with `Restart` of the images map at
subscription time — the snapshot is enqueued before registration, so no
later broadcast precedes it — and the rest of the queue contains a
`Restart` only if one of the operations was a `reset`. -/
theorem c2_subscribe_restart_first [DecidableEq K] [DecidableEq O]
    (s : Inner K O V) (ops : List (Op K O V)) :
    (s.subscribe.1.runOps ops).1.queueOf s.subscribe.2 =
        some (Event.restart s.images :: (s.subscribe.1.runOps ops).2) ∧
      ∀ e ∈ (s.subscribe.1.runOps ops).2, e.isRestart = true →
        ∃ op ∈ ops, op.isReset := by
  obtain ⟨hl, hr⟩ := runOps_trace ops s.subscribe.1
  refine ⟨?_, hr⟩
  have hsubl : s.subscribe.1.listeners =
      s.listeners ++ [(freshId s.listeners, [Event.restart s.images])] := rfl
  have hsub2 : s.subscribe.2 = freshId s.listeners := rfl
  unfold Inner.queueOf
  rw [hl, hsubl, hsub2, find_map_append,
    find_append_fresh _ _ _ (freshId_not_mem s.listeners)]
  rfl

/-- Instantiation of C2 on the empty store and a concrete reset-free
operation sequence. -/
theorem c2_subscribe_restart_first_witness :
    ((Inner.default Nat Nat Nat).subscribe.1.runOps c2ops).1.queueOf
          (Inner.default Nat Nat Nat).subscribe.2 =
        some (Event.restart (Inner.default Nat Nat Nat).images ::
          ((Inner.default Nat Nat Nat).subscribe.1.runOps c2ops).2) ∧
      ∀ e ∈ ((Inner.default Nat Nat Nat).subscribe.1.runOps c2ops).2,
        e.isRestart = true → ∃ op ∈ c2ops, op.isReset :=
  c2_subscribe_restart_first (Inner.default Nat Nat Nat) c2ops

/- ## C7: pod adapter key extraction and skipping -/

/-- C7: the pod adapter indexes exactly the non-empty image ids across the
regular, init and ephemeral container statuses, and a pod lacking a
namespace or a name yields no key and is skipped entirely by the
applied/deleted/restarted handling. -/
theorem c7_pod_adapter (p : Pod) :
    (∀ k : ImageRef, k ∈ images_from_pod p ↔
        (k.val ≠ "" ∧ ∃ c ∈ allStatuses p, c.image_id = k.val)) ∧
      (to_key p = none ↔ (p.nspace = none ∨ p.name = none)) ∧
      (to_key p = none →
        ∀ (s : Inner ImageRef PodRef Unit)
          (acc : (ImageRef → Option (State PodRef Unit)) ×
            (PodRef → Option (List ImageRef))) (l : List Pod),
          handleWatchEvent s (.applied p) = (s, []) ∧
            handleWatchEvent s (.deleted p) = (s, []) ∧
            to_state_step acc p = acc ∧
            to_state (p :: l) = to_state l) := by
  refine ⟨?_, ?_, ?_⟩
  · intro k
    unfold images_from_pod images_from_pod_list
    rw [List.mem_toFinset, List.mem_dedup, List.mem_filterMap]
    constructor
    · rintro ⟨c, hc, hid⟩
      unfold to_container_id at hid
      by_cases he : c.image_id = ""
      · rw [if_pos he] at hid
        cases hid
      · rw [if_neg he] at hid
        cases hid
        exact ⟨he, c, hc, rfl⟩
    · rintro ⟨hval, c, hc, hid⟩
      refine ⟨c, hc, ?_⟩
      unfold to_container_id
      rw [hid, if_neg hval]
  · unfold to_key
    cases hn : p.nspace <;> cases hm : p.name <;> simp
  · intro h s acc l
    have hstep : to_state_step acc p = acc := by
      simp [to_state_step, h]
    have hinit : to_state_step
        ((fun _ => none, fun _ => none) :
          (ImageRef → Option (State PodRef Unit)) ×
            (PodRef → Option (List ImageRef))) p =
        (fun _ => none, fun _ => none) := by
      simp [to_state_step, h]
    refine ⟨by simp [handleWatchEvent, h], by simp [handleWatchEvent, h], hstep, ?_⟩
    unfold to_state
    rw [List.foldl_cons, hinit]

/-- Instantiation of C7 at a pod that has a namespace but no name. -/
theorem c7_pod_adapter_witness :
    ((⟨"img"⟩ : ImageRef) ∈ images_from_pod c7pod ↔
        ((⟨"img"⟩ : ImageRef).val ≠ "" ∧
          ∃ c ∈ allStatuses c7pod, c.image_id = (⟨"img"⟩ : ImageRef).val)) ∧
      (to_key c7pod = none ↔ (c7pod.nspace = none ∨ c7pod.name = none)) ∧
      handleWatchEvent (Inner.default ImageRef PodRef Unit) (.applied c7pod) =
        (Inner.default ImageRef PodRef Unit, []) ∧
      handleWatchEvent (Inner.default ImageRef PodRef Unit) (.deleted c7pod) =
        (Inner.default ImageRef PodRef Unit, []) ∧
      to_state [c7pod] = to_state [] := by
  have h := c7_pod_adapter c7pod
  have hnone : to_key c7pod = none := rfl
  obtain ⟨hc1, hc2, hc3⟩ := h
  obtain ⟨ha, hd, _, hts⟩ := hc3 hnone (Inner.default ImageRef PodRef Unit)
    (fun _ => none, fun _ => none) []
  exact ⟨hc1 ⟨"img"⟩, hc2, ha, hd, hts⟩

/- ## C10: to_state on duplicate pod keys -/

theorem insOwner_fold (r : PodRef) (imgs : List ImageRef) :
    ∀ (m : ImageRef → Option (State PodRef Unit)) (k : ImageRef),
      (imgs.foldl (fun m image =>
          Function.update m image (some ⟨insert r (ownersAt m image), ()⟩)) m) k =
        if k ∈ imgs then some ⟨insert r (ownersAt m k), ()⟩ else m k := by
  induction imgs with
  | nil =>
    intro m k
    simp
  | cons x xs ih =>
    intro m k
    rw [List.foldl_cons,
      ih (Function.update m x (some ⟨insert r (ownersAt m x), ()⟩)) k]
    by_cases hkx : k = x
    · subst hkx
      by_cases hk : k ∈ xs
      · rw [if_pos hk, if_pos (List.mem_cons_self k xs)]
        rw [ownersAt_update, if_pos rfl]
        simp [Finset.insert_idem]
      · rw [if_neg hk, if_pos (List.mem_cons_self k xs)]
        rw [Function.update_same]
    · by_cases hk : k ∈ xs
      · rw [if_pos hk, if_pos (List.mem_cons_of_mem x hk)]
        rw [ownersAt_update, if_neg hkx]
      · rw [if_neg hk, Function.update_noteq hkx,
          if_neg (by simp [List.mem_cons, hkx, hk])]

theorem to_state_step_spec
    (acc : (ImageRef → Option (State PodRef Unit)) × (PodRef → Option (List ImageRef)))
    (pod : Pod) (r : PodRef) (hkey : to_key pod = some r)
    (hcons : ConsistentMaps acc.1 acc.2)
    (hfresh : acc.2 r = none ∧ ∀ k, r ∉ ownersAt acc.1 k) :
    ConsistentMaps (to_state_step acc pod).1 (to_state_step acc pod).2 ∧
      ∀ r', r' ≠ r → acc.2 r' = none → (∀ k, r' ∉ ownersAt acc.1 k) →
        ((to_state_step acc pod).2 r' = none ∧
          ∀ k, r' ∉ ownersAt (to_state_step acc pod).1 k) := by
  have hres : to_state_step acc pod =
      ((images_from_pod_list pod).foldl (fun m image =>
          Function.update m image (some ⟨insert r (ownersAt m image), ()⟩)) acc.1,
        Function.update acc.2 r (some (images_from_pod_list pod))) := by
    simp [to_state_step, hkey]
  rw [hres]
  set imgs := images_from_pod_list pod with himgs
  have howners : ∀ k, ownersAt ((imgs.foldl (fun m image =>
      Function.update m image (some ⟨insert r (ownersAt m image), ()⟩)) acc.1)) k =
      if k ∈ imgs then insert r (ownersAt acc.1 k) else ownersAt acc.1 k := by
    intro k
    have hfold := insOwner_fold r imgs acc.1 k
    by_cases hk : k ∈ imgs
    · rw [if_pos hk] at hfold
      rw [if_pos hk]
      exact ownersAt_of_eq_some hfold
    · rw [if_neg hk] at hfold
      rw [if_neg hk]
      exact congrArg (fun w => w.elim ∅ State.owners) hfold
  constructor
  · constructor
    · intro k o
      rw [howners k]
      by_cases hk : k ∈ imgs
      · rw [if_pos hk]
        by_cases hor : o = r
        · subst hor
          rw [show keysAt (Function.update acc.2 o (some imgs)) o = imgs by
            unfold keysAt; rw [Function.update_same]; rfl]
          exact iff_of_true (Finset.mem_insert_self _ _) hk
        · rw [show keysAt (Function.update acc.2 r (some imgs)) o = keysAt acc.2 o by
            unfold keysAt; rw [Function.update_noteq hor]]
          rw [Finset.mem_insert]
          constructor
          · rintro (hcontra | hm)
            · exact absurd hcontra hor
            · exact (hcons.1 k o).mp hm
          · exact fun hm => Or.inr ((hcons.1 k o).mpr hm)
      · rw [if_neg hk]
        by_cases hor : o = r
        · subst hor
          rw [show keysAt (Function.update acc.2 o (some imgs)) o = imgs by
            unfold keysAt; rw [Function.update_same]; rfl]
          exact iff_of_false (hfresh.2 k) hk
        · rw [show keysAt (Function.update acc.2 r (some imgs)) o = keysAt acc.2 o by
            unfold keysAt; rw [Function.update_noteq hor]]
          exact hcons.1 k o
    · intro k e hk
      have hk' : (imgs.foldl (fun m image =>
          Function.update m image (some ⟨insert r (ownersAt m image), ()⟩)) acc.1) k =
          some e := hk
      rw [insOwner_fold r imgs acc.1 k] at hk'
      by_cases hkm : k ∈ imgs
      · rw [if_pos hkm] at hk'
        cases hk'
        exact Finset.insert_ne_empty _ _
      · rw [if_neg hkm] at hk'
        exact hcons.2 k e hk'
  · intro r' hr' hp2 hfr
    constructor
    · show Function.update acc.2 r (some imgs) r' = none
      rw [Function.update_noteq hr', hp2]
    · intro k
      rw [howners k]
      by_cases hk : k ∈ imgs
      · rw [if_pos hk, Finset.mem_insert]
        rintro (hcontra | hm)
        · exact hr' hcontra
        · exact hfr k hm
      · rw [if_neg hk]
        exact hfr k

theorem to_state_go (l : List Pod) :
    ∀ acc : (ImageRef → Option (State PodRef Unit)) ×
        (PodRef → Option (List ImageRef)),
      ConsistentMaps acc.1 acc.2 →
      (∀ r ∈ l.filterMap to_key, acc.2 r = none ∧ ∀ k, r ∉ ownersAt acc.1 k) →
      (l.filterMap to_key).Nodup →
      ConsistentMaps (l.foldl to_state_step acc).1 (l.foldl to_state_step acc).2 := by
  induction l with
  | nil => exact fun acc h _ _ => h
  | cons pod rest ih =>
    intro acc hcons hfresh hnd
    cases hkey : to_key pod with
    | none =>
      have hstep : to_state_step acc pod = acc := by
        simp [to_state_step, hkey]
      rw [List.foldl_cons, hstep]
      rw [List.filterMap_cons_none hkey] at hfresh hnd
      exact ih acc hcons hfresh hnd
    | some r =>
      rw [List.filterMap_cons_some hkey] at hfresh hnd
      have hfreshr := hfresh r (List.mem_cons_self r _)
      obtain ⟨hstepc, hsteppres⟩ := to_state_step_spec acc pod r hkey hcons hfreshr
      rw [List.foldl_cons]
      refine ih (to_state_step acc pod) hstepc ?_ (List.Nodup.of_cons hnd)
      intro r' hr'
      have hne : r' ≠ r := by
        intro hcontra
        subst hcontra
        exact (List.nodup_cons.mp hnd).1 hr'
      have hf := hfresh r' (List.mem_cons_of_mem r hr')
      exact hsteppres r' hne hf.1 hf.2

/-- C10: `to_state` preserves the bidirectional consistency invariant when
the restarted pods have pairwise-distinct keys; but on two pods sharing
the key `ns/p` with image sets `{a}` and `{b}`, the images map accumulates
both keys under that owner while the pods map keeps only the last set, so
the returned maps violate the invariant — and `reset` installs that
inconsistent state. -/
theorem c10_to_state_duplicates :
    (∀ l : List Pod, (l.filterMap to_key).Nodup →
        ConsistentMaps (to_state l).1 (to_state l).2) ∧
      ¬ConsistentMaps (to_state dupPods).1 (to_state dupPods).2 ∧
      ¬((Inner.default ImageRef PodRef Unit).reset (to_state dupPods).1
          (to_state dupPods).2).1.Consistent := by
  have hmem : (⟨"ns", "p"⟩ : PodRef) ∈ ownersAt (to_state dupPods).1 ⟨"a"⟩ := by
    decide
  have hnotk : (⟨"a"⟩ : ImageRef) ∉ keysAt (to_state dupPods).2 ⟨"ns", "p"⟩ := by
    decide
  refine ⟨?_, ?_, ?_⟩
  · intro l hnd
    refine to_state_go l (fun _ => none, fun _ => none) ⟨?_, ?_⟩ ?_ hnd
    · intro k o
      simp [ownersAt, keysAt]
    · intro k e hk
      cases hk
    · intro r _
      exact ⟨rfl, fun k hmem2 => by simp [ownersAt] at hmem2⟩
  · rintro ⟨hbid, _⟩
    exact hnotk ((hbid ⟨"a"⟩ ⟨"ns", "p"⟩).mp hmem)
  · rintro ⟨hbid, _⟩
    exact hnotk ((hbid ⟨"a"⟩ ⟨"ns", "p"⟩).mp hmem)

/-- Instantiation of C10's positive half at a list of pods with distinct
keys. -/
theorem c10_to_state_duplicates_witness :
    (c10pods.filterMap to_key).Nodup ∧
      ConsistentMaps (to_state c10pods).1 (to_state c10pods).2 :=
  ⟨by decide, c10_to_state_duplicates.1 c10pods (by decide)⟩

end Bommer
